import Mathlib

/-!
Shallow embedding of the top-function resolution core of phold
(src/phold/results/topfunction.py) and proofs about it.

Conventions of the embedding:
- pandas DataFrames become Lean lists of records, preserving row order;
- floats (bitscore, evalue, proportions) become rationals;
- a NaN cell produced by a left merge becomes an Option that is none;
- a Python exception (max over an empty dict) becomes an Option result;
- pandas groupby sorts group keys, which only affects the order in which
  per-query rows are emitted across groups, never the content of any
  per-query row; we enumerate group keys in first-seen order instead.
-/

namespace Phold

/-- One structural-search hit row after the Hit Table Loader has derived
identifiers, joined the annotation table and filled missing products
(topfunction.py lines 37-97).  `product` is always non-null after the
fillna on the product column; `function` has no such fillna, so it stays
`none` when the category code was not found by the merge. -/
structure HitRecord where
  query : String
  phrog : String
  tophit_protein : String
  bitscore : ℚ
  fident : ℚ
  evalue : ℚ
  product : String
  function : Option String
  deriving Repr, DecidableEq

/-- One row of the raw hit table after identifier derivation, before the
annotation join (the state of foldseek_df at topfunction.py line 87). -/
structure RawHit where
  query : String
  phrog : String
  tophit_protein : String
  bitscore : ℚ
  fident : ℚ
  evalue : ℚ
  deriving Repr, DecidableEq

/-- One row of the phold_annots.tsv mapping table (topfunction.py lines
89-91): a category code with its product and function annotation. -/
structure AnnotRow where
  phrog : String
  product : String
  function : String
  deriving Repr, DecidableEq

/-- The left merge of one raw hit against the mapping table followed by
the fillna on the product column (topfunction.py lines 94-97).  A left
merge keeps the row and yields NaN annotation cells when the key is
absent from the mapping (we model the mapping with unique keys, so the
merge is a first-match lookup); only the product cell is then defaulted
to "hypothetical protein". -/
def joinAnnot (mapping : List AnnotRow) (h : RawHit) : HitRecord :=
  let row := mapping.find? (fun r => r.phrog == h.phrog)
  { query := h.query
    phrog := h.phrog
    tophit_protein := h.tophit_protein
    bitscore := h.bitscore
    fident := h.fident
    evalue := h.evalue
    product := (row.map (fun r => r.product)).getD "hypothetical protein"
    function := row.map (fun r => r.function) }

/-- The Hit Table Loader join applied to the whole table. -/
def joinAnnotTable (mapping : List AnnotRow) (df : List RawHit) : List HitRecord :=
  df.map (joinAnnot mapping)

/-- The Hit Filter (topfunction.py lines 102-106): keep a row when it is
a vfdb or card row with evalue strictly below the stricter threshold, or
when it is not a vfdb or card row at all. -/
def hitFilter (card_vfdb_evalue : ℚ) (df : List HitRecord) : List HitRecord :=
  df.filter (fun r =>
    (((r.phrog == "vfdb") || (r.phrog == "card")) && decide (r.evalue < card_vfdb_evalue))
    || ((r.phrog != "vfdb") && (r.phrog != "card")))

/-- First row attaining the minimum evalue of a list of rows, mirroring
pandas idxmin which returns the first index of the minimum
(topfunction.py lines 111 and 116); none only on the empty list. -/
def idxminEvalue : List HitRecord → Option HitRecord
  | [] => none
  | r :: rs =>
    match idxminEvalue rs with
    | none => some r
    | some b => if b.evalue < r.evalue then some b else some r

/-- The per-group reduction of the Top-Function Selector
(topfunction.py lines 108-118, custom_nsmallest): if every row of the
group has product "hypothetical protein", take the first row of minimum
evalue in the whole group; otherwise drop the hypothetical-protein rows
and take the first row of minimum evalue among the rest. -/
def custom_nsmallest (group : List HitRecord) : Option HitRecord :=
  if group.all (fun r => r.product == "hypothetical protein") then
    idxminEvalue group
  else
    idxminEvalue (group.filter (fun r => r.product != "hypothetical protein"))

/-- Rows of the given table whose query equals q, in input order (the
group handed to custom_nsmallest by groupby for the key q). -/
def groupFor (df : List HitRecord) (q : String) : List HitRecord :=
  df.filter (fun r => r.query == q)

/-- The distinct query keys of the table (groupby group keys), in
first-seen order. -/
def queries (df : List HitRecord) : List String :=
  (df.map (fun r => r.query)).dedup

/-- The Top-Function Selector over the whole filtered table
(topfunction.py lines 120-124): one chosen row per distinct query key
(the query key of each output row is kept here; the source drops the
query column and reformats evalue afterwards, which the claims do not
touch). -/
def topfunction_rows (df : List HitRecord) : List (String × HitRecord) :=
  (queries df).filterMap
    (fun q => (custom_nsmallest (groupFor df q)).map (fun h => (q, h)))

/-- h occurs in l, every row strictly before it has strictly larger
evalue, and every row after it has evalue at least as large: h is the
first row of l attaining the minimum evalue. -/
def FirstMinEvalue (l : List HitRecord) (h : HitRecord) : Prop :=
  ∃ l₁ l₂, l = l₁ ++ h :: l₂ ∧ (∀ x ∈ l₁, h.evalue < x.evalue) ∧
    ∀ x ∈ l₂, h.evalue ≤ x.evalue

theorem idxminEvalue_eq_none_iff (l : List HitRecord) :
    idxminEvalue l = none ↔ l = [] := by
  cases l with
  | nil => simp [idxminEvalue]
  | cons r rs =>
    simp only [idxminEvalue]
    cases hrs : idxminEvalue rs with
    | none => simp
    | some b =>
      constructor
      · intro hcontra
        by_cases hlt : b.evalue < r.evalue <;> simp [hlt] at hcontra
      · intro hcontra
        exact absurd hcontra (by simp)

theorem idxminEvalue_firstMin (l : List HitRecord) (h : HitRecord)
    (hl : idxminEvalue l = some h) : FirstMinEvalue l h := by
  induction l generalizing h with
  | nil => simp [idxminEvalue] at hl
  | cons r rs ih =>
    simp only [idxminEvalue] at hl
    cases hrs : idxminEvalue rs with
    | none =>
      rw [hrs] at hl
      have hempty : rs = [] := (idxminEvalue_eq_none_iff rs).mp hrs
      subst hempty
      refine ⟨[], [], ?_, by simp, by simp⟩
      simpa using hl
    | some b =>
      rw [hrs] at hl
      obtain ⟨l₁, l₂, hsplit, hbefore, hafter⟩ := ih b hrs
      by_cases hlt : b.evalue < r.evalue
      · obtain rfl : b = h := by simpa [hlt] using hl
        refine ⟨r :: l₁, l₂, by simp [hsplit], ?_, hafter⟩
        intro x hx
        rcases List.mem_cons.mp hx with hx | hx
        · exact hx ▸ hlt
        · exact hbefore x hx
      · obtain rfl : r = h := by simpa [hlt] using hl
        refine ⟨[], rs, by simp, by simp, ?_⟩
        intro x hx
        have hrb : r.evalue ≤ b.evalue := le_of_not_lt (by
          intro hcontra; exact hlt hcontra)
        rw [hsplit] at hx
        rcases List.mem_append.mp hx with hx | hx
        · exact le_trans hrb (le_of_lt (hbefore x hx))
        · rcases List.mem_cons.mp hx with hx | hx
          · exact hx ▸ hrb
          · exact le_trans hrb (hafter x hx)

theorem idxminEvalue_isSome (l : List HitRecord) (hne : l ≠ []) :
    ∃ h, idxminEvalue l = some h := by
  cases hi : idxminEvalue l with
  | none => exact absurd ((idxminEvalue_eq_none_iff l).mp hi) hne
  | some h => exact ⟨h, rfl⟩

/-- C1: for every non-empty group, the selector returns some row; when
every row has product "hypothetical protein" that row is the first row
of globally minimum evalue of the group, and otherwise it is the first
row of minimum evalue among the rows whose product is not
"hypothetical protein" (exact ties broken by input order). -/
theorem custom_nsmallest_spec (group : List HitRecord) (hne : group ≠ []) :
    ∃ h, custom_nsmallest group = some h ∧
      ((∀ r ∈ group, r.product = "hypothetical protein") → FirstMinEvalue group h) ∧
      ((∃ r ∈ group, r.product ≠ "hypothetical protein") →
        FirstMinEvalue
          (group.filter (fun r => r.product != "hypothetical protein")) h) := by
  by_cases hall : ∀ r ∈ group, r.product = "hypothetical protein"
  · have hcond : group.all (fun r => r.product == "hypothetical protein") = true := by
      simpa [List.all_eq_true] using hall
    obtain ⟨h, hh⟩ := idxminEvalue_isSome group hne
    refine ⟨h, by simp [custom_nsmallest, hcond, hh], fun _ => idxminEvalue_firstMin group h hh, ?_⟩
    rintro ⟨r, hr, hrp⟩
    exact absurd (hall r hr) hrp
  · have hcond : group.all (fun r => r.product == "hypothetical protein") = false := by
      simpa [List.all_eq_true] using hall
    push_neg at hall
    obtain ⟨r, hr, hrp⟩ := hall
    have hmem : r ∈ group.filter (fun r => r.product != "hypothetical protein") := by
      simp only [List.mem_filter]
      exact ⟨hr, by simpa using hrp⟩
    have hfne : group.filter (fun r => r.product != "hypothetical protein") ≠ [] :=
      List.ne_nil_of_mem hmem
    obtain ⟨h, hh⟩ := idxminEvalue_isSome _ hfne
    refine ⟨h, by simp [custom_nsmallest, hcond, hh], ?_, ?_⟩
    · intro hcontra
      exact absurd (hcontra r hr) hrp
    · intro _
      exact idxminEvalue_firstMin _ h hh

/-- Witness for C1: the concrete all-hypothetical fallback group from
the spec, three hypothetical rows with evalues 1/100, 1/10^9, 1/10^4. -/
def hypRow (e : ℚ) : HitRecord :=
  { query := "q1", phrog := "1", tophit_protein := "p", bitscore := 50,
    fident := 1, evalue := e, product := "hypothetical protein",
    function := some "unknown function" }

theorem custom_nsmallest_spec_witness :
    [hypRow (1/100), hypRow (1/1000000000), hypRow (1/10000)] ≠ [] ∧
      ∃ h, custom_nsmallest
          [hypRow (1/100), hypRow (1/1000000000), hypRow (1/10000)] = some h ∧
        ((∀ r ∈ [hypRow (1/100), hypRow (1/1000000000), hypRow (1/10000)],
            r.product = "hypothetical protein") →
          FirstMinEvalue [hypRow (1/100), hypRow (1/1000000000), hypRow (1/10000)] h) ∧
        ((∃ r ∈ [hypRow (1/100), hypRow (1/1000000000), hypRow (1/10000)],
            r.product ≠ "hypothetical protein") →
          FirstMinEvalue
            (List.filter (fun r => r.product != "hypothetical protein")
              [hypRow (1/100), hypRow (1/1000000000), hypRow (1/10000)]) h) :=
  ⟨by simp, custom_nsmallest_spec _ (by simp)⟩

/-- The keep-predicate of the Hit Filter written the way the claim reads
it: a row is removed exactly when its category code is vfdb or card and
its evalue is at least the threshold. -/
def claimKeep (card_vfdb_evalue : ℚ) (r : HitRecord) : Bool :=
  !(((r.phrog == "vfdb") || (r.phrog == "card")) && decide (card_vfdb_evalue ≤ r.evalue))

theorem hitFilter_pred_eq (t : ℚ) (r : HitRecord) :
    ((((r.phrog == "vfdb") || (r.phrog == "card")) && decide (r.evalue < t))
      || ((r.phrog != "vfdb") && (r.phrog != "card")))
    = claimKeep t r := by
  unfold claimKeep
  by_cases h1 : r.phrog = "vfdb" <;> by_cases h2 : r.phrog = "card" <;>
    by_cases h3 : r.evalue < t <;>
      simp [h1, h2, h3, bne, not_lt.mp, not_lt.mpr, not_le.mpr, le_of_not_lt]

/-- C3: the Hit Filter equals the row-level filter that removes exactly
the vfdb or card rows whose evalue reaches the threshold; it is a
sublist of its input (never adds rows), and the multiplicity of any row
whose category code is neither vfdb nor card is untouched. -/
theorem hitFilter_spec (t : ℚ) (df : List HitRecord) :
    hitFilter t df = df.filter (claimKeep t) ∧
    (hitFilter t df).Sublist df ∧
    ∀ r : HitRecord, r.phrog ≠ "vfdb" → r.phrog ≠ "card" →
      (hitFilter t df).count r = df.count r := by
  have hfe : hitFilter t df = df.filter (claimKeep t) := by
    unfold hitFilter
    exact List.filter_congr (fun r _ => hitFilter_pred_eq t r)
  refine ⟨hfe, ?_, ?_⟩
  · exact hfe ▸ df.filter_sublist
  · intro r h1 h2
    rw [hfe]
    refine List.count_filter ?_
    simp [claimKeep, h1, h2]

/-- Witness for C3 at a concrete table: one card row at exactly the
threshold (removed) and one non-card row far above it (kept). -/
def cardRow : HitRecord :=
  { query := "q1", phrog := "card", tophit_protein := "p1", bitscore := 60,
    fident := 1, evalue := 3, product := "resistance gene",
    function := some "other" }

def tailRow : HitRecord :=
  { query := "q1", phrog := "77", tophit_protein := "p2", bitscore := 40,
    fident := 1, evalue := 7, product := "tail protein",
    function := some "tail" }

theorem hitFilter_spec_witness :
    (hitFilter 3 [cardRow, tailRow]
        = List.filter (claimKeep 3) [cardRow, tailRow] ∧
      (hitFilter 3 [cardRow, tailRow]).Sublist [cardRow, tailRow] ∧
      ∀ r : HitRecord, r.phrog ≠ "vfdb" → r.phrog ≠ "card" →
        (hitFilter 3 [cardRow, tailRow]).count r
          = List.count r [cardRow, tailRow]) ∧
    tailRow.phrog ≠ "vfdb" ∧ tailRow.phrog ≠ "card" ∧
    hitFilter 3 [cardRow, tailRow] = [tailRow] :=
  ⟨hitFilter_spec 3 [cardRow, tailRow], by decide, by decide, by
    simp [hitFilter, cardRow, tailRow]⟩

/-- Concrete raw hit whose category code no mapping row carries. -/
def unmappedRaw : RawHit :=
  { query := "contig1:cds1", phrog := "9999", tophit_protein := "p",
    bitscore := 50, fident := 1, evalue := 1/1000 }

/-- Counterexample for C4: after the annotation join against a mapping
that does not know the category code, the product is defaulted but the
function cell is still null, not "unknown function". -/
theorem joinAnnot_function_counterexample :
    (joinAnnot [] unmappedRaw).product = "hypothetical protein" ∧
    (joinAnnot [] unmappedRaw).function = none ∧
    (joinAnnot [] unmappedRaw).function ≠ some "unknown function" :=
  ⟨rfl, rfl, by simp [joinAnnot]⟩

/-- C4 (amended): the join defaults only the product column; a record
whose category code is found by the lookup carries that row's product
and function, and a record whose category code is unrecognized gets
product "hypothetical protein" and a null function. -/
theorem joinAnnot_spec (mapping : List AnnotRow) (h : RawHit) :
    (mapping.find? (fun r => r.phrog == h.phrog) = none →
      (joinAnnot mapping h).product = "hypothetical protein" ∧
      (joinAnnot mapping h).function = none) ∧
    ∀ row, mapping.find? (fun r => r.phrog == h.phrog) = some row →
      (joinAnnot mapping h).product = row.product ∧
      (joinAnnot mapping h).function = some row.function := by
  constructor
  · intro hnone
    simp [joinAnnot, hnone]
  · intro row hrow
    simp [joinAnnot, hrow]

theorem joinAnnot_spec_witness :
    (List.find? (fun r => r.phrog == unmappedRaw.phrog) ([] : List AnnotRow) = none) ∧
    (joinAnnot [] unmappedRaw).product = "hypothetical protein" ∧
    (joinAnnot [] unmappedRaw).function = none :=
  ⟨rfl, (joinAnnot_spec [] unmappedRaw).1 rfl⟩

theorem custom_nsmallest_isSome (group : List HitRecord) (hne : group ≠ []) :
    ∃ h, custom_nsmallest group = some h := by
  unfold custom_nsmallest
  by_cases hall : group.all (fun r => r.product == "hypothetical protein")
  · rw [if_pos hall]
    exact idxminEvalue_isSome group hne
  · rw [if_neg hall]
    apply idxminEvalue_isSome
    rw [List.all_eq_true] at hall
    push_neg at hall
    obtain ⟨r, hr, hrp⟩ := hall
    exact List.ne_nil_of_mem
      (List.mem_filter.mpr ⟨hr, by simpa using hrp⟩)

theorem filterMap_pair_fst {α : Type} (qs : List String) (f : String → Option α)
    (hsome : ∀ q ∈ qs, (f q).isSome) :
    ((qs.filterMap (fun q => (f q).map (fun h => (q, h)))).map Prod.fst) = qs := by
  induction qs with
  | nil => rfl
  | cons q qs ih =>
    have hq : (f q).isSome := hsome q (by simp)
    obtain ⟨h, hh⟩ := Option.isSome_iff_exists.mp hq
    have htail := ih (fun x hx => hsome x (List.mem_cons_of_mem _ hx))
    simp [List.filterMap_cons, hh, htail]

theorem topfunction_rows_fst (df : List HitRecord) :
    (topfunction_rows df).map Prod.fst = queries df := by
  unfold topfunction_rows
  apply filterMap_pair_fst
  intro q hq
  have : ∃ r ∈ df, r.query = q := by
    have := List.mem_dedup.mp hq
    simpa [eq_comm] using List.mem_map.mp this
  obtain ⟨r, hr, hrq⟩ := this
  have hmem : r ∈ groupFor df q := by
    simp only [groupFor, List.mem_filter]
    exact ⟨hr, by simp [hrq]⟩
  obtain ⟨h, hh⟩ := custom_nsmallest_isSome _ (List.ne_nil_of_mem hmem)
  simp [hh]

/-- C7: over any post-filter table, the query keys of the selector
output are exactly the distinct surviving query keys, and each distinct
surviving query key appears exactly once among them (a query whose every
hit the filter removed is simply absent from the surviving table, hence
from the output). -/
theorem topfunction_rows_spec (t : ℚ) (df : List HitRecord) :
    ((topfunction_rows (hitFilter t df)).map Prod.fst) = queries (hitFilter t df) ∧
    ∀ q : String,
      ((topfunction_rows (hitFilter t df)).map Prod.fst).count q =
        if q ∈ (hitFilter t df).map (fun r => r.query) then 1 else 0 := by
  refine ⟨topfunction_rows_fst _, ?_⟩
  intro q
  rw [topfunction_rows_fst]
  by_cases hmem : q ∈ (hitFilter t df).map (fun r => r.query)
  · rw [if_pos hmem]
    exact List.count_eq_one_of_mem (List.nodup_dedup _) (List.mem_dedup.mpr hmem)
  · rw [if_neg hmem]
    exact List.count_eq_zero_of_not_mem (fun hcontra => hmem (List.mem_dedup.mp hcontra))

/-- One row of the weighted bitscore DataFrame built by
weighted_function (topfunction.py lines 175-206). -/
structure WeightedSummary where
  function_with_highest_bitscore_proportion : String
  top_bitscore_proportion_not_unknown : ℚ
  head_and_packaging_bitscore_proportion : ℚ
  integration_and_excision_bitscore_proportion : ℚ
  tail_bitscore_proportion : ℚ
  moron_auxiliary_metabolic_gene_and_host_takeover_bitscore_proportion : ℚ
  DNA_RNA_and_nucleotide_metabolism_bitscore_proportion : ℚ
  connector_bitscore_proportion : ℚ
  transcription_regulation_bitscore_proportion : ℚ
  lysis_bitscore_proportion : ℚ
  other_bitscore_proportion : ℚ
  unknown_function_bitscore_proportion : ℚ
  deriving Repr, DecidableEq

/-- Rounding to 3 decimal places (the round(value, 3) of topfunction.py
line 166).  The Python builtin rounds ties to even on binary floats; we
round half up on rationals, which differs only on exact half-thousandth
ties, and no claim depends on the tie direction - both satisfy the
half-thousandth error bound proved below. -/
def round3 (q : ℚ) : ℚ := (round (q * 1000) : ℚ) / 1000

/-- Distinct function annotations occurring in a group.  pandas groupby
on the function column drops NaN keys (modelled by filterMap) and sorts
the remaining keys; we keep first-seen order, which only influences the
argmax tie direction, a policy the spec leaves explicitly unresolved. -/
def functionKeys (group : List HitRecord) : List String :=
  (group.filterMap (fun r => r.function)).dedup

/-- Total bitscore of the rows of the group annotated with the given
function category. -/
def catBitscore (group : List HitRecord) (f : String) : ℚ :=
  ((group.filter (fun r => r.function == some f)).map (fun r => r.bitscore)).sum

/-- The group-by-function bitscore sums of topfunction.py line 150
(bitscore_by_function), as an association list. -/
def bitscore_by_function (group : List HitRecord) : List (String × ℚ) :=
  (functionKeys group).map (fun f => (f, catBitscore group f))

/-- Lines 152-154: the bitscore mass of the rows whose function cell
differs from "unknown function".  A NaN function cell compares unequal
to the string in pandas, so rows with a null function are included. -/
def total_functional_bitscore (group : List HitRecord) : ℚ :=
  ((group.filter (fun r => r.function != some "unknown function")).map
    (fun r => r.bitscore)).sum

/-- First pair attaining the maximal value, mirroring the Python max
builtin over the dict keyed by value (line 170), which replaces the
running best only on strictly greater values, so the first maximal entry
wins; none only on the empty dict, where Python max raises ValueError. -/
def maxPair : List (String × ℚ) → Option (String × ℚ)
  | [] => none
  | p :: rest =>
    match maxPair rest with
    | none => some p
    | some q => if q.2 > p.2 then some q else some p

/-- The dict .get(key, 0) lookups of lines 178-203. -/
def lookup0 (m : List (String × ℚ)) (k : String) : ℚ :=
  match m.find? (fun p => p.1 == k) with
  | some p => p.2
  | none => 0

/-- The normalised weighted counts of lines 164-168: every function key
except "unknown function", mapped to its bitscore share of
total_functional_bitscore rounded to 3 decimal places. -/
def weighted_counts_normalised (group : List HitRecord) : List (String × ℚ) :=
  ((bitscore_by_function group).filter (fun p => p.1 != "unknown function")).map
    (fun p => (p.1, round3 (p.2 / total_functional_bitscore group)))

/-- The output row assembled from the top function, its proportion and
the normalised counts dict (the literal d of lines 175-204). -/
def mkSummary (top : String) (topProp : ℚ) (wcn : List (String × ℚ)) :
    WeightedSummary :=
  { function_with_highest_bitscore_proportion := top
    top_bitscore_proportion_not_unknown := topProp
    head_and_packaging_bitscore_proportion := lookup0 wcn "head and packaging"
    integration_and_excision_bitscore_proportion :=
      lookup0 wcn "integration and excision"
    tail_bitscore_proportion := lookup0 wcn "tail"
    moron_auxiliary_metabolic_gene_and_host_takeover_bitscore_proportion :=
      lookup0 wcn "moron, auxiliary metabolic gene and host takeover"
    DNA_RNA_and_nucleotide_metabolism_bitscore_proportion :=
      lookup0 wcn "DNA, RNA and nucleotide metabolism"
    connector_bitscore_proportion := lookup0 wcn "connector"
    transcription_regulation_bitscore_proportion :=
      lookup0 wcn "transcription regulation"
    lysis_bitscore_proportion := lookup0 wcn "lysis"
    other_bitscore_proportion := lookup0 wcn "other"
    unknown_function_bitscore_proportion := lookup0 wcn "unknown function" }

/-- The Weighted-Function Summarizer for one query group
(topfunction.py lines 136-208).  When total_functional_bitscore is zero
the normalised counts stay empty and the top function is reported as
"unknown function" with proportion 0; otherwise the top entry is the
first maximal normalised count, and the Python max call raises
(modelled as none) in the degenerate case of an empty normalised dict. -/
def weighted_function (group : List HitRecord) : Option WeightedSummary :=
  if total_functional_bitscore group = 0 then
    some (mkSummary "unknown function" 0 [])
  else
    match maxPair (weighted_counts_normalised group) with
    | none => none
    | some m => some (mkSummary m.1 m.2 (weighted_counts_normalised group))

/-- The function keys of the group other than "unknown function". -/
def nonUnknownKeys (group : List HitRecord) : List String :=
  (functionKeys group).filter (fun k => k != "unknown function")

/-- A hit annotated with "unknown function" and positive bitscore. -/
def unkRow : HitRecord :=
  { query := "q3", phrog := "55", tophit_protein := "p4", bitscore := 30,
    fident := 1, evalue := 1, product := "hypothetical protein",
    function := some "unknown function" }

/-- C5: when the functional bitscore mass of the group is zero, the
summarizer reports top function "unknown function" with proportion 0 and
every per-category proportion equal to 0. -/
theorem weighted_function_zero_spec (group : List HitRecord)
    (h : total_functional_bitscore group = 0) :
    ∃ s, weighted_function group = some s ∧
      s.function_with_highest_bitscore_proportion = "unknown function" ∧
      s.top_bitscore_proportion_not_unknown = 0 ∧
      s.head_and_packaging_bitscore_proportion = 0 ∧
      s.integration_and_excision_bitscore_proportion = 0 ∧
      s.tail_bitscore_proportion = 0 ∧
      s.moron_auxiliary_metabolic_gene_and_host_takeover_bitscore_proportion = 0 ∧
      s.DNA_RNA_and_nucleotide_metabolism_bitscore_proportion = 0 ∧
      s.connector_bitscore_proportion = 0 ∧
      s.transcription_regulation_bitscore_proportion = 0 ∧
      s.lysis_bitscore_proportion = 0 ∧
      s.other_bitscore_proportion = 0 ∧
      s.unknown_function_bitscore_proportion = 0 := by
  refine ⟨mkSummary "unknown function" 0 [], ?_, ?_⟩
  · simp [weighted_function, h]
  · simp [mkSummary, lookup0]

theorem weighted_function_zero_spec_witness :
    total_functional_bitscore [unkRow] = 0 ∧
    ∃ s, weighted_function [unkRow] = some s ∧
      s.function_with_highest_bitscore_proportion = "unknown function" ∧
      s.top_bitscore_proportion_not_unknown = 0 ∧
      s.head_and_packaging_bitscore_proportion = 0 ∧
      s.integration_and_excision_bitscore_proportion = 0 ∧
      s.tail_bitscore_proportion = 0 ∧
      s.moron_auxiliary_metabolic_gene_and_host_takeover_bitscore_proportion = 0 ∧
      s.DNA_RNA_and_nucleotide_metabolism_bitscore_proportion = 0 ∧
      s.connector_bitscore_proportion = 0 ∧
      s.transcription_regulation_bitscore_proportion = 0 ∧
      s.lysis_bitscore_proportion = 0 ∧
      s.other_bitscore_proportion = 0 ∧
      s.unknown_function_bitscore_proportion = 0 :=
  ⟨by rfl, weighted_function_zero_spec [unkRow] (by rfl)⟩

theorem find?_unknown_wcn (group : List HitRecord) :
    (weighted_counts_normalised group).find?
      (fun p => p.1 == "unknown function") = none := by
  apply List.find?_eq_none.mpr
  intro p hp
  simp only [weighted_counts_normalised, List.mem_map, List.mem_filter] at hp
  obtain ⟨q, ⟨hq1, hq2⟩, rfl⟩ := hp
  simpa using hq2

/-- C10: whenever the summarizer produces a row, its
unknown_function_bitscore_proportion is 0, because the normalised counts
dict is only ever populated with keys other than "unknown function" and
the output field reads that dict with default 0. -/
theorem unknown_function_proportion_zero (group : List HitRecord)
    (s : WeightedSummary) (hs : weighted_function group = some s) :
    s.unknown_function_bitscore_proportion = 0 := by
  unfold weighted_function at hs
  by_cases h0 : total_functional_bitscore group = 0
  · rw [if_pos h0] at hs
    obtain rfl : mkSummary "unknown function" 0 [] = s := by simpa using hs
    rfl
  · rw [if_neg h0] at hs
    cases hm : maxPair (weighted_counts_normalised group) with
    | none => rw [hm] at hs; simp at hs
    | some m =>
      rw [hm] at hs
      obtain rfl : mkSummary m.1 m.2 (weighted_counts_normalised group) = s := by
        simpa using hs
      simp [mkSummary, lookup0, find?_unknown_wcn group]

theorem unknown_function_proportion_zero_witness :
    weighted_function [unkRow] = some (mkSummary "unknown function" 0 []) ∧
    (mkSummary "unknown function" 0
        []).unknown_function_bitscore_proportion = 0 :=
  ⟨by rfl, unknown_function_proportion_zero [unkRow] _ (by rfl)⟩

theorem sum_map_zero (K : List String) : (K.map (fun _ => (0:ℚ))).sum = 0 := by
  induction K with
  | nil => rfl
  | cons k K ih => simp [ih]

theorem sum_map_add (K : List String) (f g : String → ℚ) :
    (K.map (fun k => f k + g k)).sum = (K.map f).sum + (K.map g).sum := by
  induction K with
  | nil => simp
  | cons k K ih =>
    simp only [List.map_cons, List.sum_cons, ih]
    ring

theorem sum_map_div (K : List String) (f : String → ℚ) (t : ℚ) :
    (K.map (fun k => f k / t)).sum = (K.map f).sum / t := by
  induction K with
  | nil => simp
  | cons k K ih => simp [ih, add_div]

theorem sum_map_ite_zero (K : List String) (k0 : String) (c : ℚ)
    (hk : k0 ∉ K) :
    (K.map (fun k => if k0 = k then c else 0)).sum = 0 := by
  induction K with
  | nil => rfl
  | cons k K ih =>
    simp only [List.map_cons, List.sum_cons]
    rw [if_neg (by rintro rfl; exact hk (by simp))]
    rw [ih (fun h => hk (by simp [h]))]
    ring

theorem sum_map_ite_unique (K : List String) (hK : K.Nodup) (k0 : String)
    (hk : k0 ∈ K) (c : ℚ) :
    (K.map (fun k => if k0 = k then c else 0)).sum = c := by
  induction K with
  | nil => simp at hk
  | cons k K ih =>
    rcases List.mem_cons.mp hk with rfl | hmem
    · simp only [List.map_cons, List.sum_cons]
      rw [sum_map_ite_zero K k0 c (List.nodup_cons.mp hK).1]
      simp
    · have hne : k0 ≠ k := by
        rintro rfl
        exact (List.nodup_cons.mp hK).1 hmem
      simp only [List.map_cons, List.sum_cons, if_neg hne]
      rw [ih (List.nodup_cons.mp hK).2 hmem]
      ring

theorem sum_catBitscore (K : List String) (hK : K.Nodup) (l : List HitRecord)
    (hcov : ∀ r ∈ l, ∃ k ∈ K, r.function = some k) :
    (K.map (fun k => catBitscore l k)).sum = (l.map (fun r => r.bitscore)).sum := by
  induction l with
  | nil =>
    have : ∀ k ∈ K, catBitscore ([] : List HitRecord) k = (0:ℚ) := by
      intro k _; rfl
    rw [List.map_congr_left this, sum_map_zero]
    rfl
  | cons r l ih =>
    have hcovl : ∀ x ∈ l, ∃ k ∈ K, x.function = some k :=
      fun x hx => hcov x (List.mem_cons_of_mem _ hx)
    obtain ⟨k0, hk0K, hk0⟩ := hcov r (List.mem_cons_self _ _)
    have hterm : ∀ k ∈ K, catBitscore (r :: l) k =
        (if k0 = k then r.bitscore else 0) + catBitscore l k := by
      intro k _
      by_cases hc : k0 = k
      · subst hc
        simp [catBitscore, List.filter_cons, hk0]
      · have hfalse : (r.function == some k) = false := by
          simp [hk0, hc]
        simp [catBitscore, List.filter_cons, hfalse, hc]
    rw [List.map_congr_left hterm, sum_map_add, sum_map_ite_unique K hK k0 hk0K,
      ih hcovl]
    simp

theorem total_eq_sum_nonUnknown (group : List HitRecord)
    (hnn : ∀ r ∈ group, r.function ≠ none) :
    ((nonUnknownKeys group).map (fun k => catBitscore group k)).sum
      = total_functional_bitscore group := by
  have hnodup : (nonUnknownKeys group).Nodup :=
    (List.nodup_dedup _).filter _
  have hcb : ∀ k ∈ nonUnknownKeys group,
      catBitscore group k
        = catBitscore (group.filter (fun r => r.function != some "unknown function")) k := by
    intro k hk
    have hkne : k ≠ "unknown function" := by
      have := (List.mem_filter.mp hk).2
      simpa using this
    unfold catBitscore
    have hfeq :
        group.filter (fun a =>
            a.function == some k && a.function != some "unknown function")
          = group.filter (fun r => r.function == some k) := by
      apply List.filter_congr
      intro r _
      by_cases hc : r.function = some k
      · simp [hc, hkne]
      · simp [hc]
    rw [List.filter_filter, hfeq]
  rw [List.map_congr_left hcb]
  exact sum_catBitscore (nonUnknownKeys group) hnodup
    (group.filter (fun r => r.function != some "unknown function"))
    (by
      intro r hr
      obtain ⟨hrg, hrp⟩ := List.mem_filter.mp hr
      cases hf : r.function with
      | none => exact absurd hf (hnn r hrg)
      | some f =>
        refine ⟨f, ?_, rfl⟩
        have hfne : f ≠ "unknown function" := by
          rw [hf] at hrp
          simpa using hrp
        refine List.mem_filter.mpr ⟨?_, by simpa using hfne⟩
        exact List.mem_dedup.mpr (List.mem_filterMap.mpr ⟨r, hrg, hf⟩))

theorem lookup0_map (L : List String) (f : String → ℚ) (cat : String) :
    lookup0 (L.map (fun k => (k, f k))) cat = if cat ∈ L then f cat else 0 := by
  induction L with
  | nil => simp [lookup0]
  | cons k L ih =>
    by_cases hk : k = cat
    · subst hk
      simp [lookup0, List.find?_cons_of_pos]
    · rw [List.map_cons]
      have hstep :
          lookup0 ((k, f k) :: L.map (fun k => (k, f k))) cat
            = lookup0 (L.map (fun k => (k, f k))) cat := by
        simp only [lookup0]
        rw [List.find?_cons_of_neg _ (by simp [hk])]
      rw [hstep, ih]
      have hmemiff : (cat ∈ k :: L) ↔ (cat ∈ L) := by
        constructor
        · intro hm
          rcases List.mem_cons.mp hm with hm | hm
          · exact absurd hm.symm hk
          · exact hm
        · exact fun hm => List.mem_cons_of_mem _ hm
      by_cases hmem : cat ∈ L
      · rw [if_pos hmem, if_pos (hmemiff.mpr hmem)]
      · rw [if_neg hmem, if_neg (fun hc => hmem (hmemiff.mp hc))]

theorem wcn_eq (group : List HitRecord) :
    weighted_counts_normalised group
      = (nonUnknownKeys group).map
          (fun k => (k, round3 (catBitscore group k
            / total_functional_bitscore group))) := by
  unfold weighted_counts_normalised bitscore_by_function nonUnknownKeys
  rw [List.filter_map, List.map_map]
  rfl

theorem lookup0_wcn (group : List HitRecord) (cat : String)
    (hcat : cat ≠ "unknown function") :
    lookup0 (weighted_counts_normalised group) cat
      = round3 (catBitscore group cat / total_functional_bitscore group) := by
  rw [wcn_eq]
  have hlk := lookup0_map (nonUnknownKeys group)
    (fun k => round3 (catBitscore group k / total_functional_bitscore group)) cat
  rw [hlk]
  by_cases hmem : cat ∈ nonUnknownKeys group
  · rw [if_pos hmem]
  · rw [if_neg hmem]
    have hzero : catBitscore group cat = 0 := by
      unfold catBitscore
      have hfe : group.filter (fun r => r.function == some cat) = [] := by
        rw [List.filter_eq_nil_iff]
        intro r hr hcontra
        apply hmem
        refine List.mem_filter.mpr ⟨?_, by simpa using hcat⟩
        exact List.mem_dedup.mpr
          (List.mem_filterMap.mpr ⟨r, hr, by simpa using hcontra⟩)
      rw [hfe]
      rfl
    rw [hzero]
    simp [round3]

theorem maxPair_isSome (l : List (String × ℚ)) (h : l ≠ []) :
    ∃ m, maxPair l = some m := by
  cases l with
  | nil => exact absurd rfl h
  | cons p rest =>
    cases hm : maxPair rest with
    | none => exact ⟨p, by simp [maxPair, hm]⟩
    | some q =>
      refine ⟨if q.2 > p.2 then q else p, ?_⟩
      simp only [maxPair, hm]
      by_cases hq : q.2 > p.2
      · rw [if_pos hq, if_pos hq]
      · rw [if_neg hq, if_neg hq]

theorem wcn_ne_nil (group : List HitRecord)
    (hnn : ∀ r ∈ group, r.function ≠ none)
    (hne0 : total_functional_bitscore group ≠ 0) :
    weighted_counts_normalised group ≠ [] := by
  have hfne : group.filter (fun r => r.function != some "unknown function") ≠ [] := by
    intro hcontra
    apply hne0
    unfold total_functional_bitscore
    rw [hcontra]
    rfl
  obtain ⟨r, hr⟩ := List.exists_mem_of_ne_nil _ hfne
  obtain ⟨hrg, hrp⟩ := List.mem_filter.mp hr
  cases hf : r.function with
  | none => exact absurd hf (hnn r hrg)
  | some f =>
    have hfne2 : f ≠ "unknown function" := by
      rw [hf] at hrp
      simpa using hrp
    have hmem : f ∈ nonUnknownKeys group :=
      List.mem_filter.mpr
        ⟨List.mem_dedup.mpr (List.mem_filterMap.mpr ⟨r, hrg, hf⟩),
          by simpa using hfne2⟩
    rw [wcn_eq]
    intro hcontra
    rw [List.map_eq_nil_iff] at hcontra
    rw [hcontra] at hmem
    simp at hmem

theorem abs_round3_sub (q : ℚ) : |round3 q - q| ≤ 1/2000 := by
  have h := abs_sub_round (q * 1000)
  have heq : round3 q - q = -((q * 1000 - (round (q * 1000) : ℚ)) / 1000) := by
    unfold round3
    ring
  rw [heq, abs_neg, abs_div, abs_of_pos (by norm_num : (0:ℚ) < 1000)]
  rw [div_le_div_iff₀ (by norm_num) (by norm_num : (0:ℚ) < 2000)]
  calc |q * 1000 - (round (q * 1000) : ℚ)| * 2000
      ≤ (1/2) * 2000 := by
        apply mul_le_mul_of_nonneg_right h (by norm_num)
    _ = 1 * 1000 := by norm_num

/-- C6 (amended): over any group in which every hit carries a non-null
function annotation, if the functional bitscore mass is positive then
every reported category proportion is the rounding to 3 decimal places
of that category bitscore share of total_functional_bitscore, the
unrounded shares of the non-unknown categories sum to exactly 1 (each
reported value differing from its unrounded share by at most 1/2000),
and if the functional bitscore mass is zero then every reported category
proportion is 0. -/
theorem weighted_function_proportions (group : List HitRecord)
    (hnn : ∀ r ∈ group, r.function ≠ none) :
    (0 < total_functional_bitscore group →
      ∃ s, weighted_function group = some s ∧
        s.head_and_packaging_bitscore_proportion
          = round3 (catBitscore group "head and packaging"
              / total_functional_bitscore group) ∧
        s.integration_and_excision_bitscore_proportion
          = round3 (catBitscore group "integration and excision"
              / total_functional_bitscore group) ∧
        s.tail_bitscore_proportion
          = round3 (catBitscore group "tail"
              / total_functional_bitscore group) ∧
        s.moron_auxiliary_metabolic_gene_and_host_takeover_bitscore_proportion
          = round3 (catBitscore group
                "moron, auxiliary metabolic gene and host takeover"
              / total_functional_bitscore group) ∧
        s.DNA_RNA_and_nucleotide_metabolism_bitscore_proportion
          = round3 (catBitscore group "DNA, RNA and nucleotide metabolism"
              / total_functional_bitscore group) ∧
        s.connector_bitscore_proportion
          = round3 (catBitscore group "connector"
              / total_functional_bitscore group) ∧
        s.transcription_regulation_bitscore_proportion
          = round3 (catBitscore group "transcription regulation"
              / total_functional_bitscore group) ∧
        s.lysis_bitscore_proportion
          = round3 (catBitscore group "lysis"
              / total_functional_bitscore group) ∧
        s.other_bitscore_proportion
          = round3 (catBitscore group "other"
              / total_functional_bitscore group) ∧
        ((nonUnknownKeys group).map
          (fun k => catBitscore group k / total_functional_bitscore group)).sum
            = 1 ∧
        ∀ k : String,
          |round3 (catBitscore group k / total_functional_bitscore group)
            - catBitscore group k / total_functional_bitscore group|
              ≤ 1/2000) ∧
    (total_functional_bitscore group = 0 →
      ∃ s, weighted_function group = some s ∧
        s.head_and_packaging_bitscore_proportion = 0 ∧
        s.integration_and_excision_bitscore_proportion = 0 ∧
        s.tail_bitscore_proportion = 0 ∧
        s.moron_auxiliary_metabolic_gene_and_host_takeover_bitscore_proportion = 0 ∧
        s.DNA_RNA_and_nucleotide_metabolism_bitscore_proportion = 0 ∧
        s.connector_bitscore_proportion = 0 ∧
        s.transcription_regulation_bitscore_proportion = 0 ∧
        s.lysis_bitscore_proportion = 0 ∧
        s.other_bitscore_proportion = 0 ∧
        s.unknown_function_bitscore_proportion = 0) := by
  constructor
  · intro hpos
    have hne0 : total_functional_bitscore group ≠ 0 := ne_of_gt hpos
    obtain ⟨m, hm⟩ := maxPair_isSome _ (wcn_ne_nil group hnn hne0)
    refine ⟨mkSummary m.1 m.2 (weighted_counts_normalised group), ?_,
      lookup0_wcn group "head and packaging" (by decide),
      lookup0_wcn group "integration and excision" (by decide),
      lookup0_wcn group "tail" (by decide),
      lookup0_wcn group "moron, auxiliary metabolic gene and host takeover"
        (by decide),
      lookup0_wcn group "DNA, RNA and nucleotide metabolism" (by decide),
      lookup0_wcn group "connector" (by decide),
      lookup0_wcn group "transcription regulation" (by decide),
      lookup0_wcn group "lysis" (by decide),
      lookup0_wcn group "other" (by decide),
      ?_, fun k => abs_round3_sub _⟩
    · simp [weighted_function, hne0, hm]
    · rw [sum_map_div, total_eq_sum_nonUnknown group hnn, div_self hne0]
  · intro h0
    refine ⟨mkSummary "unknown function" 0 [], ?_, ?_⟩
    · simp [weighted_function, h0]
    · simp [mkSummary, lookup0]

theorem weighted_function_proportions_witness :
    (∀ r ∈ [tailRow], r.function ≠ none) ∧
    0 < total_functional_bitscore [tailRow] ∧
    ∃ s, weighted_function [tailRow] = some s ∧
      s.head_and_packaging_bitscore_proportion
        = round3 (catBitscore [tailRow] "head and packaging"
            / total_functional_bitscore [tailRow]) ∧
      s.integration_and_excision_bitscore_proportion
        = round3 (catBitscore [tailRow] "integration and excision"
            / total_functional_bitscore [tailRow]) ∧
      s.tail_bitscore_proportion
        = round3 (catBitscore [tailRow] "tail"
            / total_functional_bitscore [tailRow]) ∧
      s.moron_auxiliary_metabolic_gene_and_host_takeover_bitscore_proportion
        = round3 (catBitscore [tailRow]
              "moron, auxiliary metabolic gene and host takeover"
            / total_functional_bitscore [tailRow]) ∧
      s.DNA_RNA_and_nucleotide_metabolism_bitscore_proportion
        = round3 (catBitscore [tailRow] "DNA, RNA and nucleotide metabolism"
            / total_functional_bitscore [tailRow]) ∧
      s.connector_bitscore_proportion
        = round3 (catBitscore [tailRow] "connector"
            / total_functional_bitscore [tailRow]) ∧
      s.transcription_regulation_bitscore_proportion
        = round3 (catBitscore [tailRow] "transcription regulation"
            / total_functional_bitscore [tailRow]) ∧
      s.lysis_bitscore_proportion
        = round3 (catBitscore [tailRow] "lysis"
            / total_functional_bitscore [tailRow]) ∧
      s.other_bitscore_proportion
        = round3 (catBitscore [tailRow] "other"
            / total_functional_bitscore [tailRow]) ∧
      ((nonUnknownKeys [tailRow]).map
        (fun k => catBitscore [tailRow] k
          / total_functional_bitscore [tailRow])).sum = 1 ∧
      ∀ k : String,
        |round3 (catBitscore [tailRow] k / total_functional_bitscore [tailRow])
          - catBitscore [tailRow] k / total_functional_bitscore [tailRow]|
            ≤ 1/2000 :=
  have hpos : 0 < total_functional_bitscore [tailRow] := by
    have h1 : (some "tail" != some "unknown function") = true := by decide
    norm_num [total_functional_bitscore, tailRow, List.filter, h1]
  ⟨by decide, hpos, (weighted_function_proportions [tailRow] (by decide)).1 hpos⟩

/-- A hit whose category code was unrecognized by the annotation join:
its product was defaulted but its function cell is null. -/
def nullFnRow : HitRecord :=
  { query := "q2", phrog := "8888", tophit_protein := "p3", bitscore := 50,
    fident := 1, evalue := 1, product := "hypothetical protein",
    function := none }

def tailRow2 : HitRecord :=
  { query := "q2", phrog := "7", tophit_protein := "p5", bitscore := 50,
    fident := 1, evalue := 1, product := "tail protein",
    function := some "tail" }

/-- Counterexample for C6: in a group holding one null-function hit of
bitscore 50 and one tail hit of bitscore 50, the functional bitscore
mass is 100 (the null-function row compares unequal to
"unknown function" and is counted), yet the only category share is
tail = 1/2, so the non-unknown proportions sum to 1/2, not 1 - far
beyond any rounding slack. -/
theorem weighted_proportions_counterexample :
    0 < total_functional_bitscore [nullFnRow, tailRow2] ∧
    total_functional_bitscore [nullFnRow, tailRow2] = 100 ∧
    ((nonUnknownKeys [nullFnRow, tailRow2]).map
      (fun k => catBitscore [nullFnRow, tailRow2] k
        / total_functional_bitscore [nullFnRow, tailRow2])).sum = 1/2 ∧
    (∃ s, weighted_function [nullFnRow, tailRow2] = some s ∧
      s.tail_bitscore_proportion = 1/2 ∧
      s.head_and_packaging_bitscore_proportion
        + s.integration_and_excision_bitscore_proportion
        + s.tail_bitscore_proportion
        + s.moron_auxiliary_metabolic_gene_and_host_takeover_bitscore_proportion
        + s.DNA_RNA_and_nucleotide_metabolism_bitscore_proportion
        + s.connector_bitscore_proportion
        + s.transcription_regulation_bitscore_proportion
        + s.lysis_bitscore_proportion
        + s.other_bitscore_proportion = 1/2) ∧
    (1/2 : ℚ) ≠ 1 := by
  have h1 : (some "tail" != some "unknown function") = true := by decide
  have h2 : ((none : Option String) != some "unknown function") = true := by decide
  have h3 : ((none : Option String) == some "tail") = false := by decide
  have h4 : (some "tail" == some "tail") = true := by decide
  have h5 : (("tail" : String) != "unknown function") = true := by decide
  have htot : total_functional_bitscore [nullFnRow, tailRow2] = 100 := by
    norm_num [total_functional_bitscore, nullFnRow, tailRow2, List.filter, h1, h2]
  have hkeys : functionKeys [nullFnRow, tailRow2] = ["tail"] := by
    simp [functionKeys, nullFnRow, tailRow2]
  have hcat : catBitscore [nullFnRow, tailRow2] "tail" = 50 := by
    norm_num [catBitscore, nullFnRow, tailRow2, List.filter, h3, h4]
  have hnuk : nonUnknownKeys [nullFnRow, tailRow2] = ["tail"] := by
    simp [nonUnknownKeys, hkeys, List.filter, h5]
  have hround : round3 (50/100 : ℚ) = 1/2 := by
    unfold round3
    rw [show ((50:ℚ)/100 * 1000) = ((500:ℤ):ℚ) by norm_num, round_intCast]
    norm_num
  have hwcn : weighted_counts_normalised [nullFnRow, tailRow2] = [("tail", 1/2)] := by
    rw [wcn_eq, hnuk]
    rw [List.map_singleton, hcat, htot, hround]
  have hwf : weighted_function [nullFnRow, tailRow2]
      = some (mkSummary "tail" (1/2) [("tail", 1/2)]) := by
    unfold weighted_function
    rw [if_neg (by rw [htot]; norm_num), hwcn]
    rfl
  have hyes : lookup0 [("tail", (1/2:ℚ))] "tail" = 1/2 := by
    simp [lookup0]
  have hno : ∀ q : String, q ≠ "tail" → lookup0 [("tail", (1/2:ℚ))] q = 0 := by
    intro q hq
    have hbq : (("tail" : String) == q) = false := by
      rw [beq_eq_false_iff_ne]
      exact fun h => hq h.symm
    simp [lookup0, hbq]
  refine ⟨by rw [htot]; norm_num, htot, ?_, ?_, by norm_num⟩
  · rw [hnuk, List.map_singleton, hcat, htot]
    norm_num
  · refine ⟨mkSummary "tail" (1/2) [("tail", 1/2)], hwf, ?_, ?_⟩
    · simp only [mkSummary]
      exact hyes
    · simp only [mkSummary]
      rw [hyes, hno "head and packaging" (by decide),
        hno "integration and excision" (by decide),
        hno "moron, auxiliary metabolic gene and host takeover" (by decide),
        hno "DNA, RNA and nucleotide metabolism" (by decide),
        hno "connector" (by decide),
        hno "transcription regulation" (by decide),
        hno "lysis" (by decide), hno "other" (by decide)]
      norm_num

/-- The first elements of the phrog, product and function qualifier
lists of one CDS feature: exactly the mutable state that
calculate_topfunctions_results reads and writes (topfunction.py lines
327-394). -/
structure CdsQualifiers where
  phrog : String
  product : String
  function : String
  deriving Repr, DecidableEq

/-- The phrog, product and function cells of the values_dict stored
into result_dict for one CDS (topfunction.py lines 289-304); the other
ten cells of values_dict are carried by the source but never read by
the update logic. -/
structure TopHit where
  phrog : String
  product : String
  function : String
  deriving Repr, DecidableEq

/-- The force reset written over every CDS when the input came from a
proteins or FASTA pipeline (lines 327-330). -/
def resetQualifiers : CdsQualifiers :=
  { phrog := "No_PHROG", product := "hypothetical protein",
    function := "unknown function" }

/-- The annotation state the precedence policy compares against: the
CDS itself, or the forced reset when the proteins or FASTA flag is on. -/
def priorOf (cds : CdsQualifiers) (forceReset : Bool) : CdsQualifiers :=
  if forceReset then resetQualifiers else cds

/-- Copying the phrog, product and function of the foldseek hit over
the CDS (the three qualifier assignments of lines 349-357, 367-375 and
386-394, which are identical in the three adopting branches). -/
def adopt (h : TopHit) : CdsQualifiers :=
  { phrog := h.phrog, product := h.product, function := h.function }

/-- The per-CDS update of calculate_topfunctions_results (lines
327-398): optional force reset, then, when a foldseek hit survives for
this CDS, the precedence between the prior annotation and the hit; a
CDS with no hit keeps its (possibly reset) prior values. -/
def updateCds (cds : CdsQualifiers) (hit : Option TopHit) (forceReset : Bool) :
    CdsQualifiers :=
  match hit with
  | none => priorOf cds forceReset
  | some h =>
    if h.phrog ≠ (priorOf cds forceReset).phrog then
      if (priorOf cds forceReset).phrog = "No_PHROG" then adopt h
      else if h.function ≠ "unknown function" then adopt h
      else if (priorOf cds forceReset).function = "unknown function" then adopt h
      else priorOf cds forceReset
    else priorOf cds forceReset

/-- The Annotation Reconciler over the whole CDS structure: one
updateCds per CDS, with the surviving top hit (if any) looked up by
record id and CDS id (the result_dict built in lines 282-304). -/
def calculate_topfunctions_results
    (results : String → String → Option TopHit) (forceReset : Bool)
    (cds_dict : List (String × List (String × CdsQualifiers))) :
    List (String × List (String × CdsQualifiers)) :=
  cds_dict.map (fun rec =>
    (rec.1, rec.2.map (fun p => (p.1, updateCds p.2 (results rec.1 p.1) forceReset))))

/-- C2: the per-CDS precedence of the Reconciler, stated against the
prior annotation (the CDS values, after the force reset when that mode
is on): same phrog leaves the prior; prior No_PHROG adopts the hit
unconditionally; differing phrogs adopt a hit with known function; a
hit with unknown function never downgrades a known prior but replaces
an unknown prior; no surviving hit leaves the prior. -/
theorem reconciler_precedence (cds : CdsQualifiers) (hit : TopHit) (fr : Bool) :
    (hit.phrog = (priorOf cds fr).phrog →
      updateCds cds (some hit) fr = priorOf cds fr) ∧
    (hit.phrog ≠ (priorOf cds fr).phrog → (priorOf cds fr).phrog = "No_PHROG" →
      updateCds cds (some hit) fr = adopt hit) ∧
    (hit.phrog ≠ (priorOf cds fr).phrog → (priorOf cds fr).phrog ≠ "No_PHROG" →
      hit.function ≠ "unknown function" →
      updateCds cds (some hit) fr = adopt hit) ∧
    (hit.phrog ≠ (priorOf cds fr).phrog → (priorOf cds fr).phrog ≠ "No_PHROG" →
      hit.function = "unknown function" →
      (priorOf cds fr).function ≠ "unknown function" →
      updateCds cds (some hit) fr = priorOf cds fr) ∧
    (hit.phrog ≠ (priorOf cds fr).phrog → (priorOf cds fr).phrog ≠ "No_PHROG" →
      hit.function = "unknown function" →
      (priorOf cds fr).function = "unknown function" →
      updateCds cds (some hit) fr = adopt hit) ∧
    updateCds cds none fr = priorOf cds fr := by
  refine ⟨?_, ?_, ?_, ?_, ?_, rfl⟩
  · intro h1
    simp [updateCds, h1]
  · intro h1 h2
    rw [h2] at h1
    simp [updateCds, h1, h2]
  · intro h1 h2 h3
    simp [updateCds, h1, h2, h3]
  · intro h1 h2 h3 h4
    simp [updateCds, h1, h2, h3, h4]
  · intro h1 h2 h3 h4
    simp [updateCds, h1, h2, h3, h4]

/-- Prior annotation and hit of the first concrete reconciliation case
of the spec: a CDS pharokka left at No_PHROG and a tail hit. -/
def noPhrogCds : CdsQualifiers :=
  { phrog := "No_PHROG", product := "hypothetical protein",
    function := "unknown function" }

def hit5 : TopHit :=
  { phrog := "5", product := "tail fiber protein", function := "tail" }

theorem reconciler_precedence_witness :
    hit5.phrog ≠ (priorOf noPhrogCds false).phrog ∧
    (priorOf noPhrogCds false).phrog = "No_PHROG" ∧
    updateCds noPhrogCds (some hit5) false = adopt hit5 :=
  ⟨by decide, by decide,
    (reconciler_precedence noPhrogCds hit5 false).2.1 (by decide) (by decide)⟩

theorem updateCds_idem (cds : CdsQualifiers) (hit : Option TopHit) (fr : Bool) :
    updateCds (updateCds cds hit fr) hit fr = updateCds cds hit fr := by
  cases hit with
  | none => cases fr <;> simp [updateCds, priorOf]
  | some h =>
    cases fr
    · simp only [updateCds, priorOf, if_neg Bool.false_ne_true]
      split_ifs <;> simp_all [adopt]
    · simp [updateCds, priorOf]

/-- C8: the Reconciler is idempotent: reapplying it to its own output
with the same top-hits table (and the same mode flags) is the identity
on that output. -/
theorem reconciler_idempotent
    (results : String → String → Option TopHit) (fr : Bool)
    (d : List (String × List (String × CdsQualifiers))) :
    calculate_topfunctions_results results fr
        (calculate_topfunctions_results results fr d)
      = calculate_topfunctions_results results fr d := by
  unfold calculate_topfunctions_results
  rw [List.map_map]
  apply List.map_congr_left
  intro rec _
  simp only [Function.comp_apply]
  rw [List.map_map]
  apply congrArg
  apply List.map_congr_left
  intro p _
  simp only [Function.comp_apply]
  rw [updateCds_idem]

/-!
Heap model for the frame property of the Reconciler.  Python CDS
features are mutable objects: cds_dict maps record ids to maps from CDS
ids to object references.  We model object identity with a heap indexed
by natural-number addresses; copy.deepcopy (line 307) allocates a fresh
address per CDS feature, sequentially from a counter that dominates
every address in use, copying the qualifier values; the update loop of
lines 323-398 then writes only through the addresses of the copy.
-/

/-- Mutable store of CDS qualifier objects, addressed by naturals. -/
abbrev Heap : Type := Nat → CdsQualifiers

/-- CDS structure as references: record id to list of (CDS id, address). -/
abbrev RefDict : Type := List (String × List (String × Nat))

/-- Heap update at one address. -/
def writeHeap (h : Heap) (a : Nat) (v : CdsQualifiers) : Heap :=
  fun n => if n = a then v else h n

/-- Addresses of the copies of one record's entries: fresh consecutive
addresses starting at next. -/
def copiedEntries (entries : List (String × Nat)) (next : Nat) :
    List (String × Nat) :=
  match entries with
  | [] => []
  | (cid, _) :: rest => (cid, next) :: copiedEntries rest (next + 1)

/-- Heap after deep-copying one record's entries: each fresh address
receives the qualifier value of the corresponding original. -/
def heapAfterCopyEntries (entries : List (String × Nat)) (h : Heap)
    (next : Nat) : Heap :=
  match entries with
  | [] => h
  | (_, a) :: rest => heapAfterCopyEntries rest (writeHeap h next (h a)) (next + 1)

/-- The deep copy of the whole structure, reference part. -/
def copiedDict (d : RefDict) (next : Nat) : RefDict :=
  match d with
  | [] => []
  | (rid, es) :: rest => (rid, copiedEntries es next) :: copiedDict rest (next + es.length)

/-- The deep copy of the whole structure, heap part. -/
def heapAfterCopyDict (d : RefDict) (h : Heap) (next : Nat) : Heap :=
  match d with
  | [] => h
  | (_, es) :: rest => heapAfterCopyDict rest (heapAfterCopyEntries es h next) (next + es.length)

/-- The update loop of lines 323-398 over one record: every CDS object
of the record is overwritten in place with its updateCds result. -/
def writeEntries (results : String → String → Option TopHit) (fr : Bool)
    (rid : String) : List (String × Nat) → Heap → Heap
  | [], h => h
  | (cid, a) :: rest, h =>
    writeEntries results fr rid rest
      (writeHeap h a (updateCds (h a) (results rid cid) fr))

/-- The update loop over all records. -/
def writeDict (results : String → String → Option TopHit) (fr : Bool) :
    RefDict → Heap → Heap
  | [], h => h
  | (rid, es) :: rest, h =>
    writeDict results fr rest (writeEntries results fr rid es h)

/-- calculate_topfunctions_results on the heap model: deep-copy the CDS
structure (line 307), then run the update loop on the copy only; the
returned references are those of the copy. -/
def calculate_topfunctions_results_heap
    (results : String → String → Option TopHit) (fr : Bool)
    (d : RefDict) (h : Heap) (next : Nat) : RefDict × Heap :=
  (copiedDict d next,
    writeDict results fr (copiedDict d next) (heapAfterCopyDict d h next))

theorem heapAfterCopyEntries_lt (entries : List (String × Nat)) :
    ∀ (h : Heap) (next a : Nat), a < next →
      heapAfterCopyEntries entries h next a = h a := by
  induction entries with
  | nil => intro h next a _; rfl
  | cons p rest ih =>
    intro h next a ha
    obtain ⟨cid, addr⟩ := p
    show heapAfterCopyEntries rest (writeHeap h next (h addr)) (next + 1) a = h a
    rw [ih _ (next + 1) a (Nat.lt_succ_of_lt ha)]
    unfold writeHeap
    rw [if_neg (Nat.ne_of_lt ha)]

theorem heapAfterCopyDict_lt (d : RefDict) :
    ∀ (h : Heap) (next a : Nat), a < next →
      heapAfterCopyDict d h next a = h a := by
  induction d with
  | nil => intro h next a _; rfl
  | cons rec rest ih =>
    intro h next a ha
    obtain ⟨rid, es⟩ := rec
    show heapAfterCopyDict rest (heapAfterCopyEntries es h next) (next + es.length) a
      = h a
    rw [ih _ (next + es.length) a (Nat.lt_of_lt_of_le ha (Nat.le_add_right _ _))]
    exact heapAfterCopyEntries_lt es h next a ha

theorem copiedEntries_le (entries : List (String × Nat)) :
    ∀ (next : Nat), ∀ p ∈ copiedEntries entries next, next ≤ p.2 := by
  induction entries with
  | nil => intro next p hp; simp [copiedEntries] at hp
  | cons q rest ih =>
    intro next p hp
    obtain ⟨cid, addr⟩ := q
    rw [show copiedEntries ((cid, addr) :: rest) next
        = (cid, next) :: copiedEntries rest (next + 1) from rfl] at hp
    rcases List.mem_cons.mp hp with rfl | hp
    · exact Nat.le_refl _
    · exact Nat.le_of_succ_le (ih (next + 1) p hp)

theorem copiedDict_le (d : RefDict) :
    ∀ (next : Nat), ∀ rec ∈ copiedDict d next, ∀ p ∈ rec.2, next ≤ p.2 := by
  induction d with
  | nil => intro next rec hrec; simp [copiedDict] at hrec
  | cons q rest ih =>
    intro next rec hrec p hp
    obtain ⟨rid, es⟩ := q
    rw [show copiedDict ((rid, es) :: rest) next
        = (rid, copiedEntries es next) :: copiedDict rest (next + es.length) from rfl] at hrec
    rcases List.mem_cons.mp hrec with rfl | hrec
    · exact copiedEntries_le es next p hp
    · exact Nat.le_trans (Nat.le_add_right _ _) (ih (next + es.length) rec hrec p hp)

theorem writeEntries_frame (results : String → String → Option TopHit)
    (fr : Bool) (rid : String) (entries : List (String × Nat)) :
    ∀ (h : Heap) (a : Nat), (∀ p ∈ entries, p.2 ≠ a) →
      writeEntries results fr rid entries h a = h a := by
  induction entries with
  | nil => intro h a _; rfl
  | cons q rest ih =>
    intro h a hne
    obtain ⟨cid, addr⟩ := q
    show writeEntries results fr rid rest
      (writeHeap h addr (updateCds (h addr) (results rid cid) fr)) a = h a
    rw [ih _ a (fun p hp => hne p (List.mem_cons_of_mem _ hp))]
    unfold writeHeap
    rw [if_neg (fun hc => hne (cid, addr) (List.mem_cons_self _ _) hc.symm)]

theorem writeDict_frame (results : String → String → Option TopHit)
    (fr : Bool) (d : RefDict) :
    ∀ (h : Heap) (a : Nat), (∀ rec ∈ d, ∀ p ∈ rec.2, p.2 ≠ a) →
      writeDict results fr d h a = h a := by
  induction d with
  | nil => intro h a _; rfl
  | cons q rest ih =>
    intro h a hne
    obtain ⟨rid, es⟩ := q
    show writeDict results fr rest (writeEntries results fr rid es h) a = h a
    rw [ih _ a (fun rec hrec p hp => hne rec (List.mem_cons_of_mem _ hrec) p hp)]
    exact writeEntries_frame results fr rid es h a
      (fun p hp => hne (rid, es) (List.mem_cons_self _ _) p hp)

/-- C9: the Reconciler mutates only the deep copy: provided the
allocation counter dominates every address of the caller-supplied CDS
structure (which sequential allocation guarantees), every CDS object
reachable from the original structure holds exactly the same qualifier
values after the call as before, in either mode. -/
theorem reconciler_preserves_original
    (results : String → String → Option TopHit) (fr : Bool)
    (d : RefDict) (h : Heap) (next : Nat)
    (hwf : ∀ rec ∈ d, ∀ p ∈ rec.2, p.2 < next) :
    ∀ rec ∈ d, ∀ p ∈ rec.2,
      (calculate_topfunctions_results_heap results fr d h next).2 p.2 = h p.2 := by
  intro rec hrec p hp
  have ha : p.2 < next := hwf rec hrec p hp
  show writeDict results fr (copiedDict d next) (heapAfterCopyDict d h next) p.2
    = h p.2
  rw [writeDict_frame results fr (copiedDict d next) _ p.2
    (fun rec2 hrec2 q hq =>
      Nat.ne_of_gt (Nat.lt_of_lt_of_le ha (copiedDict_le d next rec2 hrec2 q hq)))]
  exact heapAfterCopyDict_lt d h next p.2 ha

/-- Concrete heap, structure and results table for the frame witness:
one record with one CDS at address 0, and a hit that rewrites it. -/
def h0 : Heap := fun _ => noPhrogCds

def results0 : String → String → Option TopHit := fun _ _ => some hit5

theorem reconciler_preserves_original_witness :
    (∀ rec ∈ [("r1", [("c1", (0:Nat))])], ∀ p ∈ rec.2, p.2 < 1) ∧
    (calculate_topfunctions_results_heap results0 false
        [("r1", [("c1", (0:Nat))])] h0 1).2 0 = h0 0 :=
  ⟨by decide,
    reconciler_preserves_original results0 false
      [("r1", [("c1", (0:Nat))])] h0 1 (by decide)
      ("r1", [("c1", (0:Nat))]) (List.mem_singleton.mpr rfl)
      ("c1", (0:Nat)) (List.mem_singleton.mpr rfl)⟩

end Phold
